import Mathlib

/-!
# credit_card_validator: a Luhn checksum behind one HTTP handler

A shallow embedding of `credit_card_validator.go`.

* A Go `string` is an immutable sequence of bytes; `len` counts bytes and
  `for i, r := range s` walks the UTF-8 encoded code points, `i` being the byte
  offset at which the code point starts.
* A slice access `numbers[i]` outside `0 <= i < len(numbers)` is a run-time panic;
  it is embedded as the error `Fault.indexOutOfRange`.
* Go's `int` is modelled by `Int`.  Every entry of `numbers` lies between `-96` and
  `2228126`, so the sum stays inside the 64-bit range for every string shorter than
  `2 ^ 41` bytes (`luhnSum_bound`); wrap-around is not modelled.  The `int32` difference
  `r - '0'` cannot wrap, a code point being at most `0x10FFFF` (`decodeStep_le`).
* The JSON decoder of `encoding/json` is a parameter of the handler; `http.Error`, the
  response writer and `strings.ReplaceAll` follow the Go library's documentation.
-/

namespace CreditCardValidator

/-! ## Go strings -/

/-- One byte of a Go string. -/
abbrev Byte := Fin 256

/-- A Go string: a sequence of bytes, not necessarily valid UTF-8. -/
abbrev GoString := List Byte

/-- UTF-8 encoding of one code point, as the Go compiler stores a string literal. -/
def encodeRune (c : Nat) : GoString :=
  if c ≤ 0x7F then [Fin.ofNat c]
  else if c ≤ 0x7FF then
    [Fin.ofNat (0xC0 ||| (c >>> 6)), Fin.ofNat (0x80 ||| (c &&& 0x3F))]
  else if c ≤ 0xFFFF then
    [Fin.ofNat (0xE0 ||| (c >>> 12)), Fin.ofNat (0x80 ||| ((c >>> 6) &&& 0x3F)),
      Fin.ofNat (0x80 ||| (c &&& 0x3F))]
  else
    [Fin.ofNat (0xF0 ||| (c >>> 18)), Fin.ofNat (0x80 ||| ((c >>> 12) &&& 0x3F)),
      Fin.ofNat (0x80 ||| ((c >>> 6) &&& 0x3F)), Fin.ofNat (0x80 ||| (c &&& 0x3F))]

/-- The Go string holding the UTF-8 encoding of a text. -/
def ofChars : List Char → GoString
  | [] => []
  | c :: cs => encodeRune c.toNat ++ ofChars cs

/-- The Go string denoted by a string literal. -/
def ofString (s : String) : GoString := ofChars s.toList

/-- The replacement code point U+FFFD, returned for ill-formed UTF-8. -/
def runeError : Nat := 0xFFFD

/-- Whether a byte is a UTF-8 continuation byte (`0x80 .. 0xBF`). -/
def isCont (b : Byte) : Bool := 0x80 ≤ b.val && b.val ≤ 0xBF

/-- Go's run-time `decoderune` at the head of a string whose first byte is not ASCII:
the code point and the number of bytes it occupies.  Ill-formed, overlong, surrogate
and out-of-range sequences give `(runeError, 1)`. -/
def decoderune : GoString → Nat × Nat
  | [] => (runeError, 1)
  | s0 :: rest =>
    if 0xC0 ≤ s0.val ∧ s0.val < 0xE0 then
      match rest with
      | s1 :: _ =>
        if isCont s1 then
          let r := ((s0.val &&& 0x1F) <<< 6) ||| (s1.val &&& 0x3F)
          if 0x7F < r then (r, 2) else (runeError, 1)
        else (runeError, 1)
      | _ => (runeError, 1)
    else if 0xE0 ≤ s0.val ∧ s0.val < 0xF0 then
      match rest with
      | s1 :: s2 :: _ =>
        if isCont s1 && isCont s2 then
          let r := ((s0.val &&& 0x0F) <<< 12) ||| ((s1.val &&& 0x3F) <<< 6) ||| (s2.val &&& 0x3F)
          if 0x7FF < r ∧ ¬ (0xD800 ≤ r ∧ r ≤ 0xDFFF) then (r, 3) else (runeError, 1)
        else (runeError, 1)
      | _ => (runeError, 1)
    else if 0xF0 ≤ s0.val ∧ s0.val < 0xF8 then
      match rest with
      | s1 :: s2 :: s3 :: _ =>
        if isCont s1 && isCont s2 && isCont s3 then
          let r := ((s0.val &&& 0x07) <<< 18) ||| ((s1.val &&& 0x3F) <<< 12)
            ||| ((s2.val &&& 0x3F) <<< 6) ||| (s3.val &&& 0x3F)
          if 0xFFFF < r ∧ r ≤ 0x10FFFF then (r, 4) else (runeError, 1)
        else (runeError, 1)
      | _ => (runeError, 1)
    else (runeError, 1)

/-- One step of `range` over a non-empty string: an ASCII byte is its own code point,
anything else goes through `decoderune`. -/
def decodeStep : GoString → Nat × Nat
  | [] => (runeError, 1)
  | s0 :: rest => if s0.val < 0x80 then (s0.val, 1) else decoderune (s0 :: rest)

/-- The iterations of `for i, r := range s`, continued at byte offset `i` with `skip`
bytes of the current code point still to pass: the pairs `(i, r)` in order. -/
def rangeFrom : Nat → Nat → GoString → List (Int × Int)
  | _, _, [] => []
  | skip + 1, i, _ :: rest => rangeFrom skip (i + 1) rest
  | 0, i, s0 :: rest =>
    ((i : Int), ((decodeStep (s0 :: rest)).1 : Int)) ::
      rangeFrom ((decodeStep (s0 :: rest)).2 - 1) (i + 1) rest

/-- The iterations of `for i, r := range s`. -/
def rangeString (s : GoString) : List (Int × Int) := rangeFrom 0 0 s

/-- Go's `strings.ReplaceAll(s, old, new)` for a non-empty `old = o :: os`: the leftmost
non-overlapping occurrences of `old` are replaced; `skip` bytes of a match are still to
be dropped. -/
def replaceFrom (o : Byte) (os new : GoString) : Nat → GoString → GoString
  | _, [] => []
  | skip + 1, _ :: rest => replaceFrom o os new skip rest
  | 0, c :: rest =>
    if (o :: os).isPrefixOf (c :: rest) then new ++ replaceFrom o os new os.length rest
    else c :: replaceFrom o os new 0 rest

/-- Go's `strings.ReplaceAll(s, "", new)`: `new` is inserted before every code point
and at the end. -/
def insertFrom (new : GoString) : Nat → GoString → GoString
  | _, [] => new
  | skip + 1, c :: rest => c :: insertFrom new skip rest
  | 0, c :: rest => new ++ c :: insertFrom new ((decodeStep (c :: rest)).2 - 1) rest

/-- Go's `strings.ReplaceAll`. -/
def ReplaceAll (s old new : GoString) : GoString :=
  match old with
  | [] => insertFrom new 0 s
  | o :: os => replaceFrom o os new 0 s

/-! ## Slices of `int` -/

/-- Why a run of the embedded code stops without a result. -/
inductive Fault where
  | indexOutOfRange
  | outOfFuel
  deriving DecidableEq, Repr

/-- The read `numbers[i]`. -/
def index (numbers : List Int) (i : Int) : Except Fault Int :=
  if 0 ≤ i ∧ i < numbers.length then .ok (numbers.getD i.toNat 0)
  else .error .indexOutOfRange

/-- The write `numbers[i] = v`. -/
def assign (numbers : List Int) (i : Int) (v : Int) : Except Fault (List Int) :=
  if 0 ≤ i ∧ i < numbers.length then .ok (numbers.set i.toNat v)
  else .error .indexOutOfRange

/-! ## `isValidCreditCardNumber` -/

/-- First loop: `for i, r := range cardNumber { numbers[i] = int(r - '0') }`. -/
def convertLoop (cardNumber : GoString) (numbers : List Int) : Except Fault (List Int) :=
  (rangeString cardNumber).foldlM
    (fun numbers ir => assign numbers ir.1 (ir.2 - ('0'.toNat : Int))) numbers

/-- Second loop: `for i := len(numbers) - 2; i >= 0; i -= 2 { ... }`, entered at `i`. -/
def doubleLoop : Nat → Int → List Int → Except Fault (List Int)
  | 0, i, numbers => if i ≥ 0 then .error .outOfFuel else .ok numbers
  | fuel + 1, i, numbers =>
    if i ≥ 0 then do
      let v ← index numbers i
      let numbers ← assign numbers i (v * 2)
      let v ← index numbers i
      let numbers ←
        if v > 9 then do
          let v ← index numbers i
          assign numbers i (v - 9)
        else pure numbers
      doubleLoop fuel (i - 2) numbers
    else .ok numbers

/-- Third loop: `sum := 0; for _, digit := range numbers { sum += digit }`. -/
def sumLoop (numbers : List Int) : Int :=
  numbers.foldl (fun sum digit => sum + digit) 0

/-- The function `isValidCreditCardNumber`.  The second loop gets `len(numbers)` units
of fuel, one more than the value its counter starts from. -/
def isValidCreditCardNumber (cardNumber : GoString) : Except Fault Bool := do
  let numbers := List.replicate cardNumber.length (0 : Int)
  let numbers ← convertLoop cardNumber numbers
  let numbers ← doubleLoop numbers.length ((numbers.length : Int) - 2) numbers
  let sum := sumLoop numbers
  pure (Int.tmod sum 10 == 0)

/-! ## The HTTP adapter -/

/-- The struct `Request`: the JSON request payload. -/
structure Request where
  CreditCardNumber : GoString

/-- The struct `Response`: the JSON response payload. -/
structure Response where
  IsValid : Bool
  deriving DecidableEq, Repr

/-- What the handler reads of an incoming `*http.Request`. -/
structure HttpRequest where
  Method : GoString
  Body : GoString

/-- One write to the response body: a line of text, or the JSON encoding of a
`Response` value followed by a newline. -/
inductive Payload where
  | text (line : String)
  | json (resp : Response)
  deriving DecidableEq, Repr

/-- The observable state of an `http.ResponseWriter`: the header map, the status line
once it has been sent, and the writes to the body in order. -/
structure ResponseWriter where
  header : List (String × String) := []
  status : Option Nat := none
  body : List Payload := []
  deriving DecidableEq, Repr

/-- The call `w.Header().Get(key)`. -/
def ResponseWriter.get (w : ResponseWriter) (key : String) : Option String :=
  (w.header.find? (fun kv => kv.1 == key)).map (fun kv => kv.2)

/-- The call `w.Header().Set(key, value)`. -/
def ResponseWriter.set (w : ResponseWriter) (key value : String) : ResponseWriter :=
  { w with header := (key, value) :: w.header.filter (fun kv => kv.1 != key) }

/-- The call `w.WriteHeader(code)`: the first status code sent is the one that counts. -/
def ResponseWriter.WriteHeader (w : ResponseWriter) (code : Nat) : ResponseWriter :=
  match w.status with
  | none => { w with status := some code }
  | some _ => w

/-- The call `w.Write`: sends status 200 first when no status was sent before. -/
def ResponseWriter.Write (w : ResponseWriter) (p : Payload) : ResponseWriter :=
  let w := w.WriteHeader 200
  { w with body := w.body ++ [p] }

/-- The constant `http.MethodGet`. -/
def MethodGet : GoString := ofString "GET"

/-- The constant `http.StatusMethodNotAllowed`. -/
def StatusMethodNotAllowed : Nat := 405

/-- The constant `http.StatusBadRequest`. -/
def StatusBadRequest : Nat := 400

/-- The constant `http.StatusOK`. -/
def StatusOK : Nat := 200

/-- Go's `http.Error(w, msg, code)`: a plain-text reply with the given status. -/
def httpError (w : ResponseWriter) (msg : String) (code : Nat) : ResponseWriter :=
  let w := w.set "Content-Type" "text/plain; charset=utf-8"
  let w := w.set "X-Content-Type-Options" "nosniff"
  let w := w.WriteHeader code
  w.Write (.text (msg ++ "\n"))

/-- The calls a run of the handler makes that the claims speak about. -/
inductive Call where
  | Decode (body : GoString)
  | ReplaceAll (s old new : GoString)
  | isValidCreditCardNumber (cardNumber : GoString)
  deriving DecidableEq, Repr

/-- The outcome of one run of the handler: the response writer and the calls made. -/
structure Exchange where
  w : ResponseWriter
  calls : List Call
  deriving DecidableEq, Repr

/-- The function `handleValidateRequest`.  The JSON decoder of `encoding/json` is the
parameter `decode`: `none` stands for `err != nil`, `some req` for the decoded value. -/
def handleValidateRequest (decode : GoString → Option Request) (w : ResponseWriter)
    (r : HttpRequest) : Except Fault Exchange :=
  if r.Method ≠ MethodGet then
    .ok { w := httpError w "Method not allowed" StatusMethodNotAllowed, calls := [] }
  else
    match decode r.Body with
    | none =>
      .ok { w := httpError w "Invalid JSON request" StatusBadRequest,
            calls := [.Decode r.Body] }
    | some req => do
      let cardNumber := ReplaceAll req.CreditCardNumber (ofString " ") (ofString "")
      let cardNumber' := ReplaceAll cardNumber (ofString "-") (ofString "")
      let isValid ← isValidCreditCardNumber cardNumber'
      let resp : Response := { IsValid := isValid }
      let w := w.set "Content-Type" "application/json"
      .ok { w := w.Write (.json resp),
            calls := [.Decode r.Body,
                      .ReplaceAll req.CreditCardNumber (ofString " ") (ofString ""),
                      .ReplaceAll cardNumber (ofString "-") (ofString ""),
                      .isValidCreditCardNumber cardNumber'] }

/-! ## Reference notions, following the specification's wording -/

/-- A byte that is an ASCII digit `'0'..'9'`. -/
def IsDigit (b : Byte) : Prop := 48 ≤ b.val ∧ b.val ≤ 57

instance (b : Byte) : Decidable (IsDigit b) :=
  inferInstanceAs (Decidable (48 ≤ b.val ∧ b.val ≤ 57))

/-- The digit an ASCII digit byte stands for. -/
def digitValue (b : Byte) : Nat := b.val - 48

/-- What a digit `d` at distance `dist` from the last digit adds to the reference Luhn
sum: `d` at an even distance, and `2d` (less 9 when above 9) at an odd distance. -/
def luhnTerm (dist d : Nat) : Nat :=
  if dist % 2 = 0 then d else if 2 * d ≤ 9 then 2 * d else 2 * d - 9

/-- The reference Luhn sum of a digit string. -/
def referenceLuhnSum (D : GoString) : Nat :=
  (D.reverse.enum.map (fun kd => luhnTerm kd.1 (digitValue kd.2))).sum

/-- The bytes of `s` that are neither a space nor a hyphen, in their order. -/
def stripFormatting (s : GoString) : GoString :=
  s.filter (fun b => b.val != 0x20 && b.val != 0x2D)

/-- The characters of a text that are neither a space nor a hyphen, in their order. -/
def stripFormattingChars (cs : List Char) : List Char :=
  cs.filter (fun c => c != ' ' && c != '-')

/-! ## What the three loops compute -/

/-- The slice the first loop leaves behind, read off the string: the code point less
48 at the offset where a code point starts, and the initial 0 elsewhere. -/
def convertValues : Nat → GoString → List Int
  | _, [] => []
  | skip + 1, _ :: rest => 0 :: convertValues skip rest
  | 0, s0 :: rest =>
    (((decodeStep (s0 :: rest)).1 : Int) - 48) ::
      convertValues ((decodeStep (s0 :: rest)).2 - 1) rest

/-- The body of the second loop applied to one entry. -/
def luhnDouble (v : Int) : Int := if v * 2 > 9 then v * 2 - 9 else v * 2

/-- Apply `luhnDouble` to every second entry of a list, starting with the head when the
flag is set. -/
def alternate : Bool → List Int → List Int
  | _, [] => []
  | b, x :: xs => (if b then luhnDouble x else x) :: alternate (!b) xs

/-- The sum the third loop reaches on a given string. -/
def luhnSum (s : GoString) : Int :=
  (alternate false (convertValues 0 s).reverse).sum

/-- The reference Luhn sum of digits listed from the last one backwards, the head of the
list being at distance `k` from the last digit. -/
def weightedSum (k : Nat) (R : GoString) : Nat :=
  ((R.enumFrom k).map (fun kd => luhnTerm kd.1 (digitValue kd.2))).sum

/-! ## Lemmas on slices -/

theorem index_append_cons (done rest : List Int) (v : Int) :
    index (done ++ v :: rest) (done.length : Int) = .ok v := by
  unfold index
  have h : (0 : Int) ≤ (done.length : Int) ∧
      (done.length : Int) < ((done ++ v :: rest).length : Int) := by
    constructor
    · exact Int.ofNat_nonneg _
    · simp only [List.length_append, List.length_cons]; omega
  rw [if_pos h]
  have hget : (done ++ v :: rest)[done.length]? = some v := by
    rw [List.getElem?_append_right (Nat.le_refl _)]
    simp
  simp [List.getD, hget]

theorem assign_append_cons (done rest : List Int) (v x : Int) :
    assign (done ++ v :: rest) (done.length : Int) x = .ok (done ++ x :: rest) := by
  unfold assign
  have h : (0 : Int) ≤ (done.length : Int) ∧
      (done.length : Int) < ((done ++ v :: rest).length : Int) := by
    constructor
    · exact Int.ofNat_nonneg _
    · simp only [List.length_append, List.length_cons]; omega
  rw [if_pos h]
  simp

/-! ## The first loop -/

theorem convertValues_length (s : GoString) : ∀ skip, (convertValues skip s).length = s.length := by
  induction s with
  | nil => intro skip; cases skip <;> rfl
  | cons b rest ih =>
    intro skip
    cases skip with
    | zero => simp [convertValues, ih]
    | succ k => simp [convertValues, ih]

theorem convert_fold (s : GoString) : ∀ (skip : Nat) (done : List Int),
    (rangeFrom skip done.length s).foldlM
        (fun numbers ir => assign numbers ir.1 (ir.2 - ('0'.toNat : Int)))
        (done ++ List.replicate s.length (0 : Int))
      = (Except.ok (done ++ convertValues skip s) : Except Fault (List Int)) := by
  induction s with
  | nil =>
    intro skip done
    cases skip <;> simp [rangeFrom, convertValues] <;> rfl
  | cons b rest ih =>
    intro skip done
    cases skip with
    | succ k =>
      have h := ih k (done ++ [0])
      simp only [List.length_append, List.length_singleton, List.append_assoc,
        List.singleton_append] at h
      simpa [rangeFrom, convertValues, List.replicate_succ] using h
    | zero =>
      have h := ih ((decodeStep (b :: rest)).2 - 1)
        (done ++ [((decodeStep (b :: rest)).1 : Int) - 48])
      simp only [List.length_append, List.length_singleton, List.append_assoc,
        List.singleton_append] at h
      simp only [rangeFrom, convertValues, List.length_cons, List.replicate_succ,
        List.foldlM_cons]
      rw [assign_append_cons]
      exact h

theorem convertLoop_eq (s : GoString) :
    convertLoop s (List.replicate s.length (0 : Int)) = .ok (convertValues 0 s) := by
  have h := convert_fold s 0 []
  simpa [convertLoop, rangeString] using h

/-! ## The second loop -/

theorem doubleLoop_neg (fuel : Nat) (i : Int) (numbers : List Int) (hi : i < 0) :
    doubleLoop fuel i numbers = .ok numbers := by
  have h : ¬ i ≥ 0 := by omega
  cases fuel <;> simp [doubleLoop, h]

theorem doubleLoop_step (fuel : Nat) (pre suf : List Int) (b : Int) :
    doubleLoop (fuel + 1) (pre.length : Int) (pre ++ b :: suf)
      = doubleLoop fuel ((pre.length : Int) - 2) (pre ++ luhnDouble b :: suf) := by
  have h : (pre.length : Int) ≥ 0 := Int.ofNat_nonneg _
  rw [doubleLoop, if_pos h]
  simp only [index_append_cons, assign_append_cons, bind, Except.bind]
  unfold luhnDouble
  by_cases hb : b * 2 > 9
  · simp only [if_pos hb, index_append_cons, assign_append_cons, bind, Except.bind]
  · simp only [if_neg hb, pure, Except.pure]

theorem doubleLoop_append (fuel : Nat) : ∀ (pre suf : List Int), pre.length ≤ fuel →
    doubleLoop fuel ((pre.length : Int) - 1) (pre.reverse ++ suf)
      = .ok ((alternate true pre).reverse ++ suf) := by
  induction fuel with
  | zero =>
    intro pre suf hlen
    have hnil : pre = [] := List.eq_nil_of_length_eq_zero (Nat.le_zero.mp hlen)
    subst hnil
    exact doubleLoop_neg _ _ _ (by simp)
  | succ fuel ih =>
    intro pre suf hlen
    match pre, hlen with
    | [], _ => exact doubleLoop_neg _ _ _ (by simp)
    | [b], _ =>
      have h := doubleLoop_step fuel [] suf b
      simp only [List.length_nil, List.nil_append] at h
      simp only [List.length_singleton, List.reverse_singleton, List.singleton_append,
        alternate, if_true]
      rw [show ((1 : Nat) : Int) - 1 = ((0 : Nat) : Int) by simp, h]
      exact doubleLoop_neg _ _ _ (by simp)
    | b :: a :: pre2, hlen =>
      have hlen2 : pre2.length ≤ fuel := by
        simp only [List.length_cons] at hlen; omega
      have h := doubleLoop_step fuel ((a :: pre2).reverse) suf b
      have e1 : (((b :: a :: pre2).length : Nat) : Int) - 1
          = (((a :: pre2).reverse.length : Nat) : Int) := by
        simp only [List.length_cons, List.length_reverse]; omega
      have e2 : (((a :: pre2).reverse.length : Nat) : Int) - 2
          = ((pre2.length : Nat) : Int) - 1 := by
        simp only [List.length_cons, List.length_reverse]; omega
      have e3 : (b :: a :: pre2).reverse ++ suf = (a :: pre2).reverse ++ b :: suf := by
        simp
      have e4 : (a :: pre2).reverse ++ luhnDouble b :: suf
          = pre2.reverse ++ (a :: luhnDouble b :: suf) := by
        simp
      rw [e1, e3, h, e2, e4, ih pre2 _ hlen2]
      simp [alternate]

theorem doubleLoop_eq (numbers : List Int) :
    doubleLoop numbers.length ((numbers.length : Int) - 2) numbers
      = .ok (alternate false numbers.reverse).reverse := by
  match h : numbers.reverse with
  | [] =>
    have hn : numbers = [] := by simpa using h
    subst hn
    exact doubleLoop_neg _ _ _ (by simp)
  | last :: pre =>
    have hn : numbers = pre.reverse ++ [last] := by
      have := congrArg List.reverse h
      simpa using this
    have hl : numbers.length = pre.length + 1 := by simp [hn]
    have e : ((numbers.length : Nat) : Int) - 2 = ((pre.length : Nat) : Int) - 1 := by
      rw [hl]; push_cast; omega
    have hl2 : (pre.reverse ++ [last]).length = pre.length + 1 := by simp
    rw [e]
    conv_lhs => rw [hn]
    rw [hl2, doubleLoop_append (pre.length + 1) pre [last] (Nat.le_succ _)]
    simp [alternate]

/-! ## The whole function -/

theorem sumLoop_eq (numbers : List Int) : sumLoop numbers = numbers.sum := by
  unfold sumLoop
  have h : ∀ (l : List Int) (a : Int), l.foldl (fun sum digit => sum + digit) a = a + l.sum := by
    intro l
    induction l with
    | nil => intro a; simp
    | cons x xs ih => intro a; simp [ih, add_assoc]
  simpa using h numbers 0

/-- On every string the function returns, and its verdict is whether `luhnSum` is a
multiple of ten. -/
theorem isValid_eq (s : GoString) :
    isValidCreditCardNumber s = .ok (Int.tmod (luhnSum s) 10 == 0) := by
  unfold isValidCreditCardNumber
  simp only [convertLoop_eq, bind, Except.bind, doubleLoop_eq, pure, Except.pure,
    sumLoop_eq, List.sum_reverse, luhnSum]

theorem isValid_iff_dvd (s : GoString) :
    isValidCreditCardNumber s = .ok (decide ((10 : Int) ∣ luhnSum s)) := by
  rw [isValid_eq]
  congr 1
  rw [Bool.eq_iff_iff]
  simp [Int.dvd_iff_tmod_eq_zero]

/-! ## Digit strings -/

theorem decodeStep_ascii (b : Byte) (rest : GoString) (hb : b.val < 0x80) :
    decodeStep (b :: rest) = (b.val, 1) := by
  simp [decodeStep, hb]

theorem convertValues_ascii (s : GoString) (hs : ∀ b ∈ s, b.val < 0x80) :
    convertValues 0 s = s.map (fun b => ((b.val : Nat) : Int) - 48) := by
  induction s with
  | nil => rfl
  | cons b rest ih =>
    have hb : b.val < 0x80 := hs b (List.mem_cons_self _ _)
    have hrest : ∀ c ∈ rest, c.val < 0x80 := fun c hc => hs c (List.mem_cons_of_mem _ hc)
    simp [convertValues, decodeStep_ascii b rest hb, ih hrest]

theorem convertValues_digits (D : GoString) (hD : ∀ b ∈ D, IsDigit b) :
    convertValues 0 D = D.map (fun b => ((digitValue b : Nat) : Int)) := by
  rw [convertValues_ascii D (fun b hb => by have := hD b hb; unfold IsDigit at this; omega)]
  apply List.map_congr_left
  intro b hb
  have := hD b hb
  unfold IsDigit at this
  unfold digitValue
  omega

theorem luhnDouble_natCast (d : Nat) :
    luhnDouble (d : Int) = ((if 2 * d ≤ 9 then 2 * d else 2 * d - 9 : Nat) : Int) := by
  unfold luhnDouble
  split <;> split <;> omega

theorem alternate_sum_enumFrom (l : GoString) : ∀ k : Nat,
    (alternate (decide (k % 2 = 1)) (l.map (fun b => ((digitValue b : Nat) : Int)))).sum
      = (((l.enumFrom k).map (fun kd => luhnTerm kd.1 (digitValue kd.2))).sum : Nat) := by
  induction l with
  | nil => intro k; simp [alternate]
  | cons b rest ih =>
    intro k
    have hflip : (!decide (k % 2 = 1)) = decide ((k + 1) % 2 = 1) := by
      rcases Nat.mod_two_eq_zero_or_one k with h | h <;> simp [h, Nat.add_mod]
    simp only [List.map_cons, alternate, List.enumFrom_cons, List.sum_cons, hflip, ih (k + 1)]
    push_cast
    congr 1
    unfold luhnTerm
    rcases Nat.mod_two_eq_zero_or_one k with h | h
    · simp [h]
    · simp only [h, decide_True, if_true, luhnDouble_natCast]
      simp

/-- On a digit string the sum reached by the code is the reference Luhn sum. -/
theorem luhnSum_digits (D : GoString) (hD : ∀ b ∈ D, IsDigit b) :
    luhnSum D = (referenceLuhnSum D : Int) := by
  unfold luhnSum referenceLuhnSum
  rw [convertValues_digits D hD, ← List.map_reverse]
  have h := alternate_sum_enumFrom D.reverse 0
  simpa [List.enum] using h

theorem isValid_digits (D : GoString) (hD : ∀ b ∈ D, IsDigit b) :
    isValidCreditCardNumber D = .ok (decide (referenceLuhnSum D % 10 = 0)) := by
  rw [isValid_iff_dvd, luhnSum_digits D hD]
  congr 1
  rw [decide_eq_decide]
  omega

/-! ## Normalisation -/

theorem replaceFrom_single (o : Byte) (s : GoString) :
    replaceFrom o [] [] 0 s = s.filter (fun b => b != o) := by
  induction s with
  | nil => rfl
  | cons c rest ih =>
    by_cases h : c = o
    · subst h
      simp [replaceFrom, List.isPrefixOf, ih]
    · have h2 : o ≠ c := fun e => h e.symm
      simp [replaceFrom, List.isPrefixOf, ih, h, h2]

theorem replaceAll_space (s : GoString) :
    ReplaceAll s (ofString " ") (ofString "") = s.filter (fun b => b != (0x20 : Byte)) :=
  replaceFrom_single 0x20 s

theorem replaceAll_hyphen (s : GoString) :
    ReplaceAll s (ofString "-") (ofString "") = s.filter (fun b => b != (0x2D : Byte)) :=
  replaceFrom_single 0x2D s

/-- The two `ReplaceAll` calls of the handler keep exactly the bytes that are neither a
space nor a hyphen. -/
theorem normalize_eq (s : GoString) :
    ReplaceAll (ReplaceAll s (ofString " ") (ofString "")) (ofString "-") (ofString "")
      = stripFormatting s := by
  rw [replaceAll_space, replaceAll_hyphen, List.filter_filter]
  unfold stripFormatting
  apply List.filter_congr
  intro b _
  have h20 : (b = (0x20 : Byte)) ↔ b.val = 0x20 := by
    constructor
    · intro h; rw [h]; rfl
    · intro h; exact Fin.ext h
  have h2D : (b = (0x2D : Byte)) ↔ b.val = 0x2D := by
    constructor
    · intro h; rw [h]; rfl
    · intro h; exact Fin.ext h
  rw [Bool.eq_iff_iff]
  simp only [Bool.and_eq_true, bne_iff_ne, ne_eq, h20, h2D]
  exact and_comm

theorem stripFormatting_append (s t : GoString) :
    stripFormatting (s ++ t) = stripFormatting s ++ stripFormatting t := by
  simp [stripFormatting]

theorem high_byte_val (x y : Nat) (hx : x.testBit 7 = true) :
    128 ≤ (Fin.ofNat (x ||| y) : Byte).val := by
  have hv : (Fin.ofNat (x ||| y) : Byte).val = (x ||| y) % 2 ^ 8 := rfl
  rw [hv]
  have ht : ((x ||| y) % 2 ^ 8).testBit 7 = true := by
    rw [Nat.testBit_mod_two_pow, Nat.testBit_or, hx]
    simp
  exact Nat.testBit_implies_ge ht

theorem stripFormatting_high (s : GoString) (hs : ∀ b ∈ s, 128 ≤ b.val) :
    stripFormatting s = s := by
  unfold stripFormatting
  rw [List.filter_eq_self]
  intro b hb
  have := hs b hb
  have h1 : b.val ≠ 0x20 := by omega
  have h2 : b.val ≠ 0x2D := by omega
  simp [h1, h2]

theorem encodeRune_high (c : Nat) (hc : 0x7F < c) : ∀ b ∈ encodeRune c, 128 ≤ b.val := by
  have hc1 : ¬ c ≤ 0x7F := by omega
  intro b hb
  unfold encodeRune at hb
  rw [if_neg hc1] at hb
  split at hb
  · simp only [List.mem_cons, List.mem_singleton, List.not_mem_nil, or_false] at hb
    rcases hb with h | h <;> rw [h] <;> exact high_byte_val _ _ (by decide)
  · split at hb
    · simp only [List.mem_cons, List.mem_singleton, List.not_mem_nil, or_false] at hb
      rcases hb with h | h | h <;> rw [h] <;> exact high_byte_val _ _ (by decide)
    · simp only [List.mem_cons, List.mem_singleton, List.not_mem_nil, or_false] at hb
      rcases hb with h | h | h | h <;> rw [h] <;> exact high_byte_val _ _ (by decide)

theorem stripFormatting_encodeRune (c : Char) :
    stripFormatting (encodeRune c.toNat)
      = if (c != ' ' && c != '-') = true then encodeRune c.toNat else [] := by
  by_cases hc : c.toNat ≤ 0x7F
  · have he : encodeRune c.toNat = [Fin.ofNat c.toNat] := by simp [encodeRune, hc]
    have hv : (Fin.ofNat c.toNat : Byte).val = c.toNat := by
      show c.toNat % 256 = c.toNat
      omega
    have hsp : c = ' ' ↔ c.toNat = 0x20 := by
      constructor
      · intro h; rw [h]; rfl
      · intro h
        rw [← Char.ofNat_toNat c, h]
    have hhy : c = '-' ↔ c.toNat = 0x2D := by
      constructor
      · intro h; rw [h]; rfl
      · intro h
        rw [← Char.ofNat_toNat c, h]
    have hkeep : ((Fin.ofNat c.toNat : Byte).val != 0x20 && (Fin.ofNat c.toNat : Byte).val != 0x2D)
        = (c != ' ' && c != '-') := by
      rw [hv, Bool.eq_iff_iff]
      simp only [Bool.and_eq_true, bne_iff_ne, ne_eq, hsp, hhy]
    rw [he]
    unfold stripFormatting
    by_cases h : (c != ' ' && c != '-') = true
    · rw [if_pos h, List.filter_cons_of_pos (by rw [hkeep]; exact h), List.filter_nil]
    · rw [if_neg h, List.filter_cons_of_neg (by rw [hkeep]; exact h), List.filter_nil]
  · have hhigh := encodeRune_high c.toNat (by omega)
    have hsp : c ≠ ' ' := by
      intro h; rw [h] at hc; exact hc (by decide)
    have hhy : c ≠ '-' := by
      intro h; rw [h] at hc; exact hc (by decide)
    rw [stripFormatting_high _ hhigh]
    simp [hsp, hhy]

/-- On the UTF-8 encoding of a text, dropping the space and hyphen bytes is dropping
the space and hyphen characters. -/
theorem stripFormatting_ofChars (cs : List Char) :
    stripFormatting (ofChars cs) = ofChars (stripFormattingChars cs) := by
  induction cs with
  | nil => rfl
  | cons c rest ih =>
    rw [ofChars, stripFormatting_append, stripFormatting_encodeRune, ih]
    unfold stripFormattingChars
    by_cases h : (c != ' ' && c != '-') = true
    · rw [if_pos h, List.filter_cons_of_pos (by exact h), ofChars]
    · rw [if_neg h, List.filter_cons_of_neg (by exact h), List.nil_append]

/-! ## The range loop stays inside the string -/

theorem rangeFrom_index (s : GoString) : ∀ (skip i : Nat) (ir : Int × Int),
    ir ∈ rangeFrom skip i s → (i : Int) ≤ ir.1 ∧ ir.1 < ((i + s.length : Nat) : Int) := by
  induction s with
  | nil => intro skip i ir h; cases skip <;> simp [rangeFrom] at h
  | cons b rest ih =>
    intro skip i ir h
    cases skip with
    | succ k =>
      simp only [rangeFrom] at h
      have := ih k (i + 1) ir h
      simp only [List.length_cons]
      push_cast at this ⊢
      omega
    | zero =>
      simp only [rangeFrom, List.mem_cons] at h
      rcases h with h | h
      · subst h
        simp only [List.length_cons]
        push_cast
        omega
      · have := ih _ (i + 1) ir h
        simp only [List.length_cons]
        push_cast at this ⊢
        omega

/-! ## The handler on a decoded GET request -/

theorem handle_get (decode : GoString → Option Request) (w : ResponseWriter)
    (r : HttpRequest) (req : Request)
    (hm : r.Method = MethodGet) (hd : decode r.Body = some req) :
    handleValidateRequest decode w r = .ok
      { w := (w.set "Content-Type" "application/json").Write
          (.json { IsValid := Int.tmod (luhnSum (stripFormatting req.CreditCardNumber)) 10 == 0 }),
        calls := [.Decode r.Body,
          .ReplaceAll req.CreditCardNumber (ofString " ") (ofString ""),
          .ReplaceAll (ReplaceAll req.CreditCardNumber (ofString " ") (ofString ""))
            (ofString "-") (ofString ""),
          .isValidCreditCardNumber (stripFormatting req.CreditCardNumber)] } := by
  unfold handleValidateRequest
  rw [if_neg (by simp [hm])]
  simp only [hd, normalize_eq, isValid_eq, bind, Except.bind]

theorem fresh_json_reply (resp : Response) :
    ((({} : ResponseWriter).set "Content-Type" "application/json").Write (.json resp)).status
        = some StatusOK ∧
    ((({} : ResponseWriter).set "Content-Type" "application/json").Write (.json resp)).get
        "Content-Type" = some "application/json" ∧
    ((({} : ResponseWriter).set "Content-Type" "application/json").Write (.json resp)).body
        = [.json resp] := by
  refine ⟨rfl, ?_, rfl⟩
  simp [ResponseWriter.get, ResponseWriter.set, ResponseWriter.Write, ResponseWriter.WriteHeader]

/-! ## The sum stays inside the range of `int` -/

theorem decoderune_le (s : GoString) : (decoderune s).1 ≤ 0x10FFFF := by
  have and5 : ∀ a : Nat, a &&& 0x1F < 2 ^ 5 := fun a => Nat.and_lt_two_pow a (by decide)
  have and4 : ∀ a : Nat, a &&& 0x0F < 2 ^ 4 := fun a => Nat.and_lt_two_pow a (by decide)
  have and6 : ∀ a : Nat, a &&& 0x3F < 2 ^ 6 := fun a => Nat.and_lt_two_pow a (by decide)
  have two : ∀ a b : Nat, ((a &&& 0x1F) <<< 6) ||| (b &&& 0x3F) < 2 ^ 11 := by
    intro a b
    have h1 := and5 a
    have h2 := and6 b
    apply Nat.or_lt_two_pow
    · rw [Nat.shiftLeft_eq]; omega
    · omega
  have three : ∀ a b c : Nat,
      ((a &&& 0x0F) <<< 12) ||| ((b &&& 0x3F) <<< 6) ||| (c &&& 0x3F) < 2 ^ 16 := by
    intro a b c
    have h1 := and4 a
    have h2 := and6 b
    have h3 := and6 c
    apply Nat.or_lt_two_pow
    · apply Nat.or_lt_two_pow
      · rw [Nat.shiftLeft_eq]; omega
      · rw [Nat.shiftLeft_eq]; omega
    · omega
  unfold decoderune
  split
  · decide
  · split
    · split
      · split
        · simp only []
          split
          · exact Nat.le_of_lt (Nat.lt_trans (two _ _) (by decide))
          · decide
        · decide
      · decide
    · split
      · split
        · split
          · simp only []
            split
            · exact Nat.le_of_lt (Nat.lt_trans (three _ _ _) (by decide))
            · decide
          · decide
        · decide
      · split
        · split
          · split
            · simp only []
              split
              · rename_i h
                exact h.2
              · decide
            · decide
          · decide
        · decide

theorem decodeStep_le (s : GoString) : (decodeStep s).1 ≤ 0x10FFFF := by
  unfold decodeStep
  split
  · decide
  · split
    · simp only []
      omega
    · exact decoderune_le _

theorem convertValues_bound (s : GoString) : ∀ (skip : Nat) (v : Int),
    v ∈ convertValues skip s → -48 ≤ v ∧ v ≤ 1114063 := by
  induction s with
  | nil => intro skip v h; cases skip <;> simp [convertValues] at h
  | cons b rest ih =>
    intro skip v h
    cases skip with
    | succ k =>
      simp only [convertValues, List.mem_cons] at h
      rcases h with h | h
      · subst h; omega
      · exact ih k v h
    | zero =>
      simp only [convertValues, List.mem_cons] at h
      rcases h with h | h
      · have := decodeStep_le (b :: rest)
        subst h
        omega
      · exact ih _ v h

theorem alternate_sum_bound (l : List Int) (hl : ∀ v ∈ l, -48 ≤ v ∧ v ≤ 1114063) :
    ∀ flag : Bool, -96 * (l.length : Int) ≤ (alternate flag l).sum ∧
      (alternate flag l).sum ≤ 2228126 * (l.length : Int) := by
  induction l with
  | nil => intro flag; simp [alternate]
  | cons x xs ih =>
    intro flag
    have hx := hl x (List.mem_cons_self _ _)
    have hxs := ih (fun v hv => hl v (List.mem_cons_of_mem _ hv)) (!flag)
    simp only [alternate, List.sum_cons, List.length_cons]
    push_cast
    cases flag
    · simp only [Bool.false_eq_true, if_false]
      omega
    · simp only [if_true]
      unfold luhnDouble
      split <;> omega

/-- The sum the third loop reaches: at least `-96` and at most `2228126` per byte of the
string, hence inside the range of a 64-bit `int` for every string below `2 ^ 41` bytes. -/
theorem luhnSum_bound (s : GoString) :
    -96 * (s.length : Int) ≤ luhnSum s ∧ luhnSum s ≤ 2228126 * (s.length : Int) := by
  have h := alternate_sum_bound (convertValues 0 s).reverse
    (fun v hv => convertValues_bound s 0 v (List.mem_reverse.1 hv)) false
  simpa [luhnSum, convertValues_length] using h

theorem digits_of_all (D : GoString) (h : D.all (fun b => decide (IsDigit b)) = true) :
    ∀ b ∈ D, IsDigit b :=
  fun b hb => of_decide_eq_true (List.all_eq_true.1 h b hb)

/-! ## The reference sum, digit by digit -/

theorem referenceLuhnSum_eq (D : GoString) :
    referenceLuhnSum D = weightedSum 0 D.reverse := rfl

theorem weightedSum_cons (k : Nat) (x : Byte) (R : GoString) :
    weightedSum k (x :: R) = luhnTerm k (digitValue x) + weightedSum (k + 1) R := by
  simp [weightedSum]

theorem weightedSum_append (X Y : GoString) : ∀ k : Nat,
    weightedSum k (X ++ Y) = weightedSum k X + weightedSum (k + X.length) Y := by
  induction X with
  | nil => intro k; simp [weightedSum]
  | cons x X ih =>
    intro k
    simp only [List.cons_append, weightedSum_cons, ih, List.length_cons]
    rw [show k + 1 + X.length = k + (X.length + 1) by omega]
    omega

theorem weightedSum_split (X Y : GoString) (a : Byte) :
    weightedSum 0 (X ++ a :: Y)
      = weightedSum 0 X + luhnTerm X.length (digitValue a) + weightedSum (X.length + 1) Y := by
  rw [weightedSum_append, weightedSum_cons]
  simp only [Nat.zero_add]
  omega

theorem reverse_split (pre suf : GoString) (a : Byte) :
    (pre ++ a :: suf).reverse = suf.reverse ++ a :: pre.reverse := by
  simp

theorem luhnTerm_mod (k d : Nat) : luhnTerm k d = luhnTerm (k % 2) d := by
  unfold luhnTerm
  simp [Nat.mod_mod]

theorem luhnTerm_zero (k : Nat) : luhnTerm k 0 = 0 := by
  unfold luhnTerm
  split <;> simp

theorem luhnTerm_inj (k x y : Nat) (hx : x ≤ 9) (hy : y ≤ 9)
    (h : luhnTerm k x % 10 = luhnTerm k y % 10) : x = y := by
  unfold luhnTerm at h
  split at h
  · omega
  · split at h <;> split at h <;> omega

theorem digitValue_le (b : Byte) (hb : IsDigit b) : digitValue b ≤ 9 := by
  unfold IsDigit at hb
  unfold digitValue
  omega

theorem digitValue_inj (a b : Byte) (ha : IsDigit a) (hb : IsDigit b)
    (h : digitValue a = digitValue b) : a = b := by
  unfold IsDigit at ha hb
  unfold digitValue at h
  apply Fin.ext
  omega

/-- On a digit string the function accepts exactly when the weighted sum of the digits,
read from the last one, is a multiple of ten. -/
theorem isValid_digits_iff (D : GoString) (hD : ∀ b ∈ D, IsDigit b) :
    isValidCreditCardNumber D = .ok true ↔ weightedSum 0 D.reverse % 10 = 0 := by
  rw [isValid_digits D hD, referenceLuhnSum_eq]
  constructor
  · intro h
    injection h with h
    exact of_decide_eq_true h
  · intro h
    rw [decide_eq_true h]

/-! ## Check digit, single changes, transpositions and leading zeros -/

theorem digits_append_singleton (P : GoString) (c : Byte) (hP : ∀ b ∈ P, IsDigit b)
    (hc : IsDigit c) : ∀ b ∈ P ++ [c], IsDigit b := by
  intro b hb
  rcases List.mem_append.1 hb with h | h
  · exact hP b h
  · rw [List.mem_singleton.1 h]; exact hc

theorem isValid_append_digit (P : GoString) (c : Byte) (hP : ∀ b ∈ P, IsDigit b)
    (hc : IsDigit c) :
    isValidCreditCardNumber (P ++ [c]) = .ok true
      ↔ (digitValue c + weightedSum 1 P.reverse) % 10 = 0 := by
  rw [isValid_digits_iff _ (digits_append_singleton P c hP hc)]
  have h : (P ++ [c]).reverse = c :: P.reverse := by simp
  rw [h, weightedSum_cons]
  simp [luhnTerm]

theorem single_change (pre suf : GoString) (a b : Byte)
    (hD : ∀ c ∈ pre ++ a :: suf, IsDigit c) (hE : ∀ c ∈ pre ++ b :: suf, IsDigit c)
    (hab : a ≠ b)
    (h1 : isValidCreditCardNumber (pre ++ a :: suf) = .ok true)
    (h2 : isValidCreditCardNumber (pre ++ b :: suf) = .ok true) : False := by
  have ha : IsDigit a := hD a (by simp)
  have hb : IsDigit b := hE b (by simp)
  rw [isValid_digits_iff _ hD, reverse_split, weightedSum_split] at h1
  rw [isValid_digits_iff _ hE, reverse_split, weightedSum_split] at h2
  have hmod : luhnTerm suf.reverse.length (digitValue a) % 10
      = luhnTerm suf.reverse.length (digitValue b) % 10 := by omega
  exact hab (digitValue_inj a b ha hb
    (luhnTerm_inj _ _ _ (digitValue_le a ha) (digitValue_le b hb) hmod))

theorem differ_decomp (D : GoString) : ∀ (E : GoString) (i : Nat),
    D.length = E.length → i < D.length → (∀ j, j ≠ i → D[j]? = E[j]?) →
    ∃ pre a b suf, D = pre ++ a :: suf ∧ E = pre ++ b :: suf ∧
      D[i]? = some a ∧ E[i]? = some b := by
  induction D with
  | nil => intro E i _ hi _; simp at hi
  | cons x xs ih =>
    intro E i hlen hi hsame
    cases E with
    | nil => simp at hlen
    | cons y ys =>
      cases i with
      | zero =>
        have hys : xs = ys := by
          apply List.ext_getElem?
          intro n
          have := hsame (n + 1) (by omega)
          simpa using this
        subst hys
        exact ⟨[], x, y, xs, rfl, rfl, by simp, by simp⟩
      | succ i =>
        have hxy : x = y := by
          have := hsame 0 (by omega)
          simpa using this
        subst hxy
        obtain ⟨pre, a, b, suf, h1, h2, h3, h4⟩ := ih ys i
          (by simpa using hlen) (by simpa using hi)
          (fun j hj => by
            have := hsame (j + 1) (by omega)
            simpa using this)
        refine ⟨x :: pre, a, b, suf, ?_, ?_, ?_, ?_⟩
        · rw [h1]; rfl
        · rw [h2]; rfl
        · simpa using h3
        · simpa using h4

theorem swap_table : ∀ k, k < 2 → ∀ x, x < 10 → ∀ y, y < 10 → x ≠ y →
    ((luhnTerm k x + luhnTerm (k + 1) y) % 10 = (luhnTerm k y + luhnTerm (k + 1) x) % 10
      ↔ (x = 0 ∧ y = 9) ∨ (x = 9 ∧ y = 0)) := by
  intro k hk x hx y hy hxy
  interval_cases k <;> interval_cases x <;> interval_cases y <;>
    first
      | exact absurd rfl hxy
      | decide

theorem swap_mod (k x y : Nat) (hx : x ≤ 9) (hy : y ≤ 9) (hxy : x ≠ y) :
    ((luhnTerm k x + luhnTerm (k + 1) y) % 10 = (luhnTerm k y + luhnTerm (k + 1) x) % 10
      ↔ (x = 0 ∧ y = 9) ∨ (x = 9 ∧ y = 0)) := by
  have h := swap_table (k % 2) (Nat.mod_lt _ (by decide)) x (by omega) y (by omega) hxy
  have e1 : ∀ d, luhnTerm k d = luhnTerm (k % 2) d := fun d => luhnTerm_mod k d
  have e2 : ∀ d, luhnTerm (k + 1) d = luhnTerm (k % 2 + 1) d := by
    intro d
    rw [luhnTerm_mod (k + 1) d, luhnTerm_mod (k % 2 + 1) d]
    congr 1
    omega
  rw [e1 x, e1 y, e2 x, e2 y]
  exact h

theorem weightedSum_zero (k : Nat) (R : GoString) (x : Byte) (hx : digitValue x = 0) :
    weightedSum k (R ++ [x]) = weightedSum k R := by
  rw [weightedSum_append, weightedSum_cons, hx, luhnTerm_zero]
  simp [weightedSum]

theorem isValid_leading_zero (D : GoString) (hD : ∀ b ∈ D, IsDigit b) :
    isValidCreditCardNumber ((48 : Byte) :: D) = isValidCreditCardNumber D := by
  have hD0 : ∀ b ∈ (48 : Byte) :: D, IsDigit b := by
    intro b hb
    rcases List.mem_cons.1 hb with h | h
    · rw [h]; decide
    · exact hD b h
  rw [isValid_digits _ hD0, isValid_digits _ hD, referenceLuhnSum_eq, referenceLuhnSum_eq,
    List.reverse_cons, weightedSum_zero _ _ (48 : Byte) rfl]

theorem stripFormatting_only (s : GoString) (hs : ∀ b ∈ s, b.val = 0x20 ∨ b.val = 0x2D) :
    stripFormatting s = [] := by
  unfold stripFormatting
  rw [List.filter_eq_nil_iff]
  intro b hb
  rcases hs b hb with h | h <;> simp [h]

theorem same_elsewhere (pre suf : GoString) (a b : Byte) :
    ∀ j, j ≠ pre.length → (pre ++ a :: suf)[j]? = (pre ++ b :: suf)[j]? := by
  induction pre with
  | nil =>
    intro j hj
    cases j with
    | zero => exact absurd rfl hj
    | succ j => simp
  | cons x xs ih =>
    intro j hj
    cases j with
    | zero => simp
    | succ j =>
      have := ih j (by simpa using hj)
      simpa using this

/-! ## The claims -/

/-- C1: on every string `D` of ASCII digits, `isValidCreditCardNumber D` returns, and it
returns `true` exactly when the reference Luhn sum of `D` (each digit as it is at an
even distance from the last digit, doubled and reduced by 9 when above 9 at an odd
distance) is divisible by 10. -/
theorem isValidCreditCardNumber_iff_luhn (D : GoString) (hD : ∀ b ∈ D, IsDigit b) :
    isValidCreditCardNumber D = .ok (decide (referenceLuhnSum D % 10 = 0)) :=
  isValid_digits D hD

theorem isValidCreditCardNumber_iff_luhn_witness :
    (∀ b ∈ ofString "79927398713", IsDigit b) ∧
    isValidCreditCardNumber (ofString "79927398713")
      = .ok (decide (referenceLuhnSum (ofString "79927398713") % 10 = 0)) :=
  ⟨digits_of_all _ (by decide),
    isValidCreditCardNumber_iff_luhn (ofString "79927398713") (digits_of_all _ (by decide))⟩

/-- C2: a GET request whose body decodes to a `Request` with `credit_card_number = s`
is answered with status 200, the header `Content-Type: application/json`, and the JSON
of a `Response` whose `is_valid` is the result of `isValidCreditCardNumber` on `s`
without its spaces and hyphens; for `s = "0"` that result is `true`. -/
theorem handleValidateRequest_get (decode : GoString → Option Request) (r : HttpRequest)
    (s : GoString) (hm : r.Method = MethodGet)
    (hd : decode r.Body = some { CreditCardNumber := s }) :
    ∃ ex b, handleValidateRequest decode {} r = .ok ex ∧
      isValidCreditCardNumber (stripFormatting s) = .ok b ∧
      ex.w.status = some StatusOK ∧
      ex.w.get "Content-Type" = some "application/json" ∧
      ex.w.body = [.json { IsValid := b }] ∧
      (s = ofString "0" → b = true) := by
  refine ⟨_, _, handle_get decode {} r _ hm hd, isValid_eq _, ?_, ?_, ?_, ?_⟩
  · exact (fresh_json_reply _).1
  · exact (fresh_json_reply _).2.1
  · exact (fresh_json_reply _).2.2
  · intro hs
    subst hs
    rfl

theorem handleValidateRequest_get_witness :
    ∃ ex b,
      handleValidateRequest (fun _ => some { CreditCardNumber := ofString "0" }) {}
        { Method := ofString "GET",
          Body := ofString "\x7b\"credit_card_number\": \"0\"\x7d" } = .ok ex ∧
      isValidCreditCardNumber (stripFormatting (ofString "0")) = .ok b ∧
      ex.w.status = some StatusOK ∧
      ex.w.get "Content-Type" = some "application/json" ∧
      ex.w.body = [.json { IsValid := b }] ∧
      (ofString "0" = ofString "0" → b = true) :=
  handleValidateRequest_get (fun _ => some { CreditCardNumber := ofString "0" })
    { Method := ofString "GET", Body := ofString "\x7b\"credit_card_number\": \"0\"\x7d" }
    (ofString "0") rfl rfl

/-- C3: the normalisation of the handler, `ReplaceAll` of `" "` and then of `"-"` by the
empty string, returns exactly the bytes of the input that are neither a space nor a
hyphen, in their order; on the UTF-8 encoding of a text these are the characters of the
text that are neither a space nor a hyphen; and `"4532 0151 1283 0366"` and
`"4532-0151-1283-0366"` both become `"4532015112830366"`. -/
theorem normalization_strips_formatting :
    (∀ s : GoString,
      ReplaceAll (ReplaceAll s (ofString " ") (ofString "")) (ofString "-") (ofString "")
        = s.filter (fun b => b.val != 0x20 && b.val != 0x2D)) ∧
    (∀ cs : List Char,
      ReplaceAll (ReplaceAll (ofChars cs) (ofString " ") (ofString "")) (ofString "-")
          (ofString "")
        = ofChars (cs.filter (fun c => c != ' ' && c != '-'))) ∧
    ReplaceAll (ReplaceAll (ofString "4532 0151 1283 0366") (ofString " ") (ofString ""))
        (ofString "-") (ofString "") = ofString "4532015112830366" ∧
    ReplaceAll (ReplaceAll (ofString "4532-0151-1283-0366") (ofString " ") (ofString ""))
        (ofString "-") (ofString "") = ofString "4532015112830366" := by
  refine ⟨fun s => normalize_eq s, fun cs => ?_, by decide, by decide⟩
  rw [normalize_eq, stripFormatting_ofChars]
  rfl

/-- C4: two GET requests whose `credit_card_number` strings become equal once the
spaces and hyphens are deleted from each receive the same `is_valid` result, and the
same response altogether. -/
theorem handleValidateRequest_formatting_invariant (decode : GoString → Option Request)
    (r r2 : HttpRequest) (s t : GoString)
    (hm : r.Method = MethodGet) (hm2 : r2.Method = MethodGet)
    (hd : decode r.Body = some { CreditCardNumber := s })
    (hd2 : decode r2.Body = some { CreditCardNumber := t })
    (hst : stripFormatting s = stripFormatting t) :
    ∃ ex ex2 b, handleValidateRequest decode {} r = .ok ex ∧
      handleValidateRequest decode {} r2 = .ok ex2 ∧
      ex.w.body = [.json { IsValid := b }] ∧
      ex2.w.body = [.json { IsValid := b }] ∧
      ex.w = ex2.w := by
  refine ⟨_, _, _, handle_get decode {} r _ hm hd, handle_get decode {} r2 _ hm2 hd2,
    (fresh_json_reply _).2.2, ?_, ?_⟩
  · simp only [hst]
    exact (fresh_json_reply _).2.2
  · simp only [hst]

theorem handleValidateRequest_formatting_invariant_witness :
    stripFormatting (ofString "4532 0151 1283 0366")
      = stripFormatting (ofString "4532-0151-1283-0366") ∧
    ∃ ex ex2 b,
      handleValidateRequest
        (fun body =>
          if body = ofString "\x7b\"credit_card_number\": \"4532 0151 1283 0366\"\x7d" then
            some { CreditCardNumber := ofString "4532 0151 1283 0366" }
          else some { CreditCardNumber := ofString "4532-0151-1283-0366" }) {}
        { Method := ofString "GET",
          Body := ofString "\x7b\"credit_card_number\": \"4532 0151 1283 0366\"\x7d" }
        = .ok ex ∧
      handleValidateRequest
        (fun body =>
          if body = ofString "\x7b\"credit_card_number\": \"4532 0151 1283 0366\"\x7d" then
            some { CreditCardNumber := ofString "4532 0151 1283 0366" }
          else some { CreditCardNumber := ofString "4532-0151-1283-0366" }) {}
        { Method := ofString "GET",
          Body := ofString "\x7b\"credit_card_number\": \"4532-0151-1283-0366\"\x7d" }
        = .ok ex2 ∧
      ex.w.body = [.json { IsValid := b }] ∧
      ex2.w.body = [.json { IsValid := b }] ∧
      ex.w = ex2.w :=
  ⟨by decide,
    handleValidateRequest_formatting_invariant _
      { Method := ofString "GET",
        Body := ofString "\x7b\"credit_card_number\": \"4532 0151 1283 0366\"\x7d" }
      { Method := ofString "GET",
        Body := ofString "\x7b\"credit_card_number\": \"4532-0151-1283-0366\"\x7d" }
      (ofString "4532 0151 1283 0366") (ofString "4532-0151-1283-0366")
      rfl rfl rfl rfl (by decide)⟩

/-- C5: a request whose method is not GET is answered with status 405 and the text
`Method not allowed`, whatever its body and whatever the decoder would make of it: the
run decodes nothing, calls neither `ReplaceAll` nor `isValidCreditCardNumber`, and
writes no `Response`. -/
theorem handleValidateRequest_wrong_method (decode : GoString → Option Request)
    (r : HttpRequest) (hm : r.Method ≠ MethodGet) :
    handleValidateRequest decode {} r = .ok
      { w := { header := [("X-Content-Type-Options", "nosniff"),
                          ("Content-Type", "text/plain; charset=utf-8")],
               status := some 405,
               body := [.text "Method not allowed\n"] },
        calls := [] } := by
  unfold handleValidateRequest
  rw [if_pos hm]
  rfl

theorem handleValidateRequest_wrong_method_witness :
    ofString "POST" ≠ MethodGet ∧
    handleValidateRequest (fun _ => some { CreditCardNumber := ofString "0" }) {}
        { Method := ofString "POST",
          Body := ofString "\x7b\"credit_card_number\": \"0\"\x7d" } = .ok
      { w := { header := [("X-Content-Type-Options", "nosniff"),
                          ("Content-Type", "text/plain; charset=utf-8")],
               status := some 405,
               body := [.text "Method not allowed\n"] },
        calls := [] } :=
  ⟨by decide,
    handleValidateRequest_wrong_method (fun _ => some { CreditCardNumber := ofString "0" })
      { Method := ofString "POST", Body := ofString "\x7b\"credit_card_number\": \"0\"\x7d" }
      (by decide)⟩

/-- C6: a GET request whose body fails to decode is answered with status 400 and the
text `Invalid JSON request`; after the failed decoding the run makes no further call
(no `ReplaceAll`, no `isValidCreditCardNumber`) and writes no `Response`. -/
theorem handleValidateRequest_bad_json (decode : GoString → Option Request)
    (r : HttpRequest) (hm : r.Method = MethodGet) (hd : decode r.Body = none) :
    handleValidateRequest decode {} r = .ok
      { w := { header := [("X-Content-Type-Options", "nosniff"),
                          ("Content-Type", "text/plain; charset=utf-8")],
               status := some 400,
               body := [.text "Invalid JSON request\n"] },
        calls := [.Decode r.Body] } := by
  unfold handleValidateRequest
  rw [if_neg (by simp [hm])]
  simp only [hd]
  rfl

theorem handleValidateRequest_bad_json_witness :
    handleValidateRequest (fun _ => none) {}
        { Method := ofString "GET", Body := ofString "\x7b\"credit_card_number\": " } = .ok
      { w := { header := [("X-Content-Type-Options", "nosniff"),
                          ("Content-Type", "text/plain; charset=utf-8")],
               status := some 400,
               body := [.text "Invalid JSON request\n"] },
        calls := [.Decode (ofString "\x7b\"credit_card_number\": ")] } :=
  handleValidateRequest_bad_json (fun _ => none)
    { Method := ofString "GET", Body := ofString "\x7b\"credit_card_number\": " } rfl rfl

/-- C7: `isValidCreditCardNumber("4532015112830366")` returns `true`. -/
theorem isValidCreditCardNumber_visa :
    isValidCreditCardNumber (ofString "4532015112830366") = .ok true := by
  rfl

/-- C8: `isValidCreditCardNumber("1234567812345670")` returns `true` and
`isValidCreditCardNumber("1234567890123456")` returns `false`. -/
theorem isValidCreditCardNumber_examples :
    isValidCreditCardNumber (ofString "1234567812345670") = .ok true ∧
    isValidCreditCardNumber (ofString "1234567890123456") = .ok false := by
  exact ⟨rfl, rfl⟩

/-- C9: on the empty string the three loops leave the empty slice and the sum 0, and
`isValidCreditCardNumber("")` returns `true`. -/
theorem isValidCreditCardNumber_empty :
    convertLoop (ofString "") (List.replicate (ofString "").length 0) = .ok [] ∧
    doubleLoop ([] : List Int).length ((([] : List Int).length : Int) - 2) [] = .ok [] ∧
    sumLoop [] = 0 ∧
    isValidCreditCardNumber (ofString "") = .ok true := by
  exact ⟨rfl, rfl, rfl, rfl⟩

/-- C10: on every string, of any length and of any bytes, `isValidCreditCardNumber`
returns a boolean, with no index out of range and within the fuel of its second loop;
the first loop ends with every write in range, every index `i` that `range` yields
satisfies `0 <= i < len(cardNumber) = len(numbers)`, and the second loop ends with
every access in range. -/
theorem isValidCreditCardNumber_total (s : GoString) :
    (∃ b, isValidCreditCardNumber s = .ok b) ∧
    (∃ numbers, convertLoop s (List.replicate s.length 0) = .ok numbers ∧
      numbers.length = s.length ∧
      ∃ doubled, doubleLoop numbers.length ((numbers.length : Int) - 2) numbers
        = .ok doubled) ∧
    (∀ ir ∈ rangeString s, 0 ≤ ir.1 ∧ ir.1 < ((List.replicate s.length (0 : Int)).length : Int)) := by
  refine ⟨⟨_, isValid_eq s⟩, ⟨_, convertLoop_eq s, convertValues_length s 0, _,
    doubleLoop_eq _⟩, ?_⟩
  intro ir hir
  have h := rangeFrom_index s 0 0 ir hir
  simp only [List.length_replicate]
  push_cast at h ⊢
  omega

/-- C11: every string `P` of ASCII digits, the empty one included, has exactly one
check digit: there is one and only one digit byte `c` for which
`isValidCreditCardNumber` returns `true` on `P` followed by `c`. -/
theorem check_digit_exists_unique (P : GoString) (hP : ∀ b ∈ P, IsDigit b) :
    ∃! c : Byte, IsDigit c ∧ isValidCreditCardNumber (P ++ [c]) = .ok true := by
  have hlt : 48 + (10 - weightedSum 1 P.reverse % 10) % 10 < 256 := by omega
  have hc0 : IsDigit (⟨48 + (10 - weightedSum 1 P.reverse % 10) % 10, hlt⟩ : Byte) := by
    unfold IsDigit
    simp only []
    omega
  refine ⟨⟨48 + (10 - weightedSum 1 P.reverse % 10) % 10, hlt⟩, ⟨hc0, ?_⟩, ?_⟩
  · rw [isValid_append_digit P _ hP hc0]
    unfold digitValue
    simp only []
    omega
  · rintro c ⟨hc, hv⟩
    have h := (isValid_append_digit P c hP hc).1 hv
    unfold IsDigit at hc
    unfold digitValue at h
    apply Fin.ext
    simp only []
    omega

theorem check_digit_exists_unique_witness :
    (∀ b ∈ ofString "7992739871", IsDigit b) ∧
    ∃! c : Byte, IsDigit c ∧
      isValidCreditCardNumber (ofString "7992739871" ++ [c]) = .ok true :=
  ⟨digits_of_all _ (by decide),
    check_digit_exists_unique (ofString "7992739871") (digits_of_all _ (by decide))⟩

/-- C12: two strings of ASCII digits of the same length that differ in exactly one
position are never both accepted by `isValidCreditCardNumber`. -/
theorem single_digit_error_detected (D E : GoString)
    (hD : ∀ b ∈ D, IsDigit b) (hE : ∀ b ∈ E, IsDigit b)
    (hlen : D.length = E.length) (i : Nat) (hi : i < D.length)
    (hne : D[i]? ≠ E[i]?) (hsame : ∀ j, j ≠ i → D[j]? = E[j]?) :
    ¬ (isValidCreditCardNumber D = .ok true ∧ isValidCreditCardNumber E = .ok true) := by
  obtain ⟨pre, a, b, suf, h1, h2, h3, h4⟩ := differ_decomp D E i hlen hi hsame
  have hab : a ≠ b := by
    intro h
    apply hne
    rw [h3, h4, h]
  subst h1
  subst h2
  rintro ⟨hv1, hv2⟩
  exact single_change pre suf a b hD hE hab hv1 hv2

theorem single_digit_error_detected_witness :
    ¬ (isValidCreditCardNumber (ofString "4532015112830366") = .ok true ∧
      isValidCreditCardNumber (ofString "4532015112830866") = .ok true) :=
  single_digit_error_detected (ofString "4532015112830366") (ofString "4532015112830866")
    (digits_of_all _ (by decide)) (digits_of_all _ (by decide)) rfl 13 (by decide)
    (by decide)
    (same_elsewhere (ofString "4532015112830") (ofString "66") 0x33 0x38)

/-- C13: in a string of ASCII digits accepted by `isValidCreditCardNumber`, swapping
two adjacent different digits `a` and `b` gives a string that is accepted again exactly
when the two digits are `0` and `9`: every adjacent transposition is detected except
`09 <-> 90`. -/
theorem adjacent_transposition (pre suf : GoString) (a b : Byte)
    (hD : ∀ c ∈ pre ++ a :: b :: suf, IsDigit c) (hab : a ≠ b)
    (hvalid : isValidCreditCardNumber (pre ++ a :: b :: suf) = .ok true) :
    isValidCreditCardNumber (pre ++ b :: a :: suf) = .ok true
      ↔ (a = 0x30 ∧ b = 0x39) ∨ (a = 0x39 ∧ b = 0x30) := by
  have ha : IsDigit a := hD a (by simp)
  have hb : IsDigit b := hD b (by simp)
  have hE : ∀ c ∈ pre ++ b :: a :: suf, IsDigit c := by
    intro c hc
    apply hD c
    simp only [List.mem_append, List.mem_cons] at hc ⊢
    tauto
  have hne : digitValue b ≠ digitValue a := fun h => hab (digitValue_inj b a hb ha h).symm
  have hswap := swap_mod suf.reverse.length (digitValue b) (digitValue a)
    (digitValue_le b hb) (digitValue_le a ha) hne
  have e1 : (pre ++ a :: b :: suf).reverse = suf.reverse ++ b :: ([a] ++ pre.reverse) := by
    simp
  have e2 : (pre ++ b :: a :: suf).reverse = suf.reverse ++ a :: ([b] ++ pre.reverse) := by
    simp
  rw [isValid_digits_iff _ hD, e1, weightedSum_split, weightedSum_append,
    weightedSum_cons] at hvalid
  rw [isValid_digits_iff _ hE, e2, weightedSum_split, weightedSum_append, weightedSum_cons]
  simp only [weightedSum, List.enumFrom_nil, List.map_nil, List.sum_nil, Nat.add_zero,
    List.length_singleton] at hvalid ⊢
  have h0 : ∀ c : Byte, IsDigit c → (c = 0x30 ↔ digitValue c = 0) := by
    intro c hc
    unfold IsDigit at hc
    unfold digitValue
    constructor
    · intro h; rw [h]; rfl
    · intro h; apply Fin.ext; show c.val = 48; omega
  have h9 : ∀ c : Byte, IsDigit c → (c = 0x39 ↔ digitValue c = 9) := by
    intro c hc
    unfold IsDigit at hc
    unfold digitValue
    constructor
    · intro h; rw [h]; rfl
    · intro h; apply Fin.ext; show c.val = 57; omega
  rw [h0 a ha, h9 b hb, h9 a ha, h0 b hb]
  constructor
  · intro h
    rcases hswap.1 (by omega) with ⟨h1, h2⟩ | ⟨h1, h2⟩
    · exact Or.inr ⟨h2, h1⟩
    · exact Or.inl ⟨h2, h1⟩
  · intro h
    have hs : (digitValue b = 0 ∧ digitValue a = 9) ∨ (digitValue b = 9 ∧ digitValue a = 0) := by
      rcases h with ⟨h1, h2⟩ | ⟨h1, h2⟩
      · exact Or.inr ⟨h2, h1⟩
      · exact Or.inl ⟨h2, h1⟩
    have := hswap.2 hs
    omega

theorem adjacent_transposition_witness :
    (isValidCreditCardNumber (ofString "4532015112830366") = .ok true ∧
      ((0x32 : Byte) ≠ 0x30) ∧
      (isValidCreditCardNumber (ofString "4530215112830366") = .ok true
        ↔ ((0x32 : Byte) = 0x30 ∧ (0x30 : Byte) = 0x39)
          ∨ ((0x32 : Byte) = 0x39 ∧ (0x30 : Byte) = 0x30))) :=
  ⟨rfl, by decide,
    adjacent_transposition (ofString "453") (ofString "15112830366") 0x32 0x30
      (digits_of_all _ (by decide)) (by decide) rfl⟩

/-- C14: on a string `D` of ASCII digits, `isValidCreditCardNumber` returns the same on
`"0"` followed by `D` as on `D`, and so for any number of leading zeros. -/
theorem leading_zeros_irrelevant (D : GoString) (hD : ∀ b ∈ D, IsDigit b) :
    isValidCreditCardNumber (ofString "0" ++ D) = isValidCreditCardNumber D ∧
    ∀ n : Nat, isValidCreditCardNumber (List.replicate n (0x30 : Byte) ++ D)
      = isValidCreditCardNumber D := by
  refine ⟨isValid_leading_zero D hD, fun n => ?_⟩
  have key : ∀ n : Nat, (∀ b ∈ List.replicate n (0x30 : Byte) ++ D, IsDigit b) ∧
      isValidCreditCardNumber (List.replicate n (0x30 : Byte) ++ D)
        = isValidCreditCardNumber D := by
    intro n
    induction n with
    | zero => exact ⟨by simpa using hD, by simp⟩
    | succ k ih =>
      rw [List.replicate_succ, List.cons_append]
      refine ⟨?_, ?_⟩
      · intro b hb
        rcases List.mem_cons.1 hb with h | h
        · rw [h]; decide
        · exact ih.1 b h
      · rw [isValid_leading_zero _ ih.1]
        exact ih.2
  exact (key n).2

theorem leading_zeros_irrelevant_witness :
    (∀ b ∈ ofString "4532015112830366", IsDigit b) ∧
    (isValidCreditCardNumber (ofString "0" ++ ofString "4532015112830366")
        = isValidCreditCardNumber (ofString "4532015112830366") ∧
      ∀ n : Nat,
        isValidCreditCardNumber (List.replicate n (0x30 : Byte) ++ ofString "4532015112830366")
          = isValidCreditCardNumber (ofString "4532015112830366")) :=
  ⟨digits_of_all _ (by decide),
    leading_zeros_irrelevant (ofString "4532015112830366") (digits_of_all _ (by decide))⟩

/-- C15: `isValidCreditCardNumber` has no guard against non-digits: the first loop
stores the code point less 48 whatever the byte is, `"D"` becomes 20 and `":"` becomes
10, and both strings, which hold no digit, are reported valid. -/
theorem non_digits_accepted :
    (∀ b : Byte, convertLoop [b] (List.replicate [b].length 0)
      = .ok [((decodeStep [b]).1 : Int) - 48]) ∧
    ofString "D" = [0x44] ∧ ¬ IsDigit (0x44 : Byte) ∧
    convertLoop (ofString "D") (List.replicate (ofString "D").length 0) = .ok [20] ∧
    isValidCreditCardNumber (ofString "D") = .ok true ∧
    ofString ":" = [0x3A] ∧ ¬ IsDigit (0x3A : Byte) ∧
    convertLoop (ofString ":") (List.replicate (ofString ":").length 0) = .ok [10] ∧
    isValidCreditCardNumber (ofString ":") = .ok true := by
  refine ⟨fun b => ?_, rfl, by decide, rfl, rfl, rfl, by decide, rfl, rfl⟩
  rw [convertLoop_eq]
  simp [convertValues]

/-- C16: a GET request whose decoded `credit_card_number` holds nothing but spaces and
hyphens, the empty string included, is answered with status 200 and `is_valid = true`. -/
theorem handleValidateRequest_only_formatting (decode : GoString → Option Request)
    (r : HttpRequest) (s : GoString) (hm : r.Method = MethodGet)
    (hd : decode r.Body = some { CreditCardNumber := s })
    (hs : ∀ b ∈ s, b.val = 0x20 ∨ b.val = 0x2D) :
    ∃ ex, handleValidateRequest decode {} r = .ok ex ∧
      ex.w.status = some StatusOK ∧
      ex.w.body = [.json { IsValid := true }] := by
  refine ⟨_, handle_get decode {} r _ hm hd, (fresh_json_reply _).1, ?_⟩
  simp only [stripFormatting_only s hs]
  exact (fresh_json_reply _).2.2

theorem handleValidateRequest_only_formatting_witness :
    (∃ ex,
      handleValidateRequest
          (fun body =>
            if body = ofString "\x7b\x7d" then some { CreditCardNumber := ofString "" }
            else some { CreditCardNumber := ofString " - -" }) {}
          { Method := ofString "GET",
            Body := ofString "\x7b\"credit_card_number\": \" - -\"\x7d" } = .ok ex ∧
        ex.w.status = some StatusOK ∧
        ex.w.body = [.json { IsValid := true }]) :=
  handleValidateRequest_only_formatting _
    { Method := ofString "GET", Body := ofString "\x7b\"credit_card_number\": \" - -\"\x7d" }
    (ofString " - -") rfl rfl
    (fun b hb => of_decide_eq_true
      (List.all_eq_true.1
        (by decide :
          (ofString " - -").all (fun b => decide (b.val = 0x20 ∨ b.val = 0x2D)) = true)
        b hb))

end CreditCardValidator
